import Mathlib

/-!
Verification of the lock-free order book in src/examples/cpp/order_book.hpp
(namespace hft, class LockFreeOrderBook).

The development is a shallow embedding of the sequential semantics of the
book: each C++ operation becomes a pure Lean function on an explicit book
state.  IEEE-754 doubles are modelled as exact rationals (every comparison
and arithmetic step of the source is exact on the values it actually
stores), the atomic `valid` flag becomes a plain `Bool` (under a single
thread the compare-exchange from `false` to `true` always succeeds), and
the fixed-size `std::array<PriceLevel, MaxLevels>` becomes a list whose
length is the capacity.
-/

namespace hft

/-- Embedding of `struct PriceLevel` (order_book.hpp lines 20-27): price,
aggregated size, timestamp and the validity flag. -/
structure PriceLevel where
  price : ℚ
  size : ℤ
  timestamp_ns : ℕ
  valid : Bool
deriving DecidableEq

/-- Default-constructed `PriceLevel()`: price 0.0, size 0, timestamp 0,
valid false (order_book.hpp line 26). -/
def emptyLevel : PriceLevel := ⟨0, 0, 0, false⟩

/-- Exact value of `std::numeric_limits<double>::max()`, the initial
extremum of the best-ask scan (order_book.hpp line 77).  Written as an
integer literal so that concrete book states evaluate by kernel reduction;
the lemma `dblMax_eq` below states the usual closed form 2^1024 - 2^971. -/
def dblMax : ℚ := 179769313486231570814527423731704356798070567525844996598917476803157260780028538760589558632766878171540458953514382464234321326889464182768467546703537516986049910576551282076245490090389328944075868508455133942304583236903222948165808559332123348274797826204144723168738177180919299881250404026184124858368

/-- Embedding of the book state: the two side tables `bids_` and `asks_`
(order_book.hpp lines 118-119). -/
structure OrderBook where
  bids : List PriceLevel
  asks : List PriceLevel
deriving DecidableEq

/-- Freshly constructed book of capacity `n`: every slot on both sides is
invalid (constructor, order_book.hpp lines 34-41). -/
def emptyBook (n : ℕ) : OrderBook :=
  ⟨List.replicate n emptyLevel, List.replicate n emptyLevel⟩

/-- The ask-scan sentinel is the largest finite double, 2^1024 - 2^971. -/
theorem dblMax_eq : dblMax = 2 ^ 1024 - 2 ^ 971 := by
  rw [dblMax]
  norm_num

/-- Sequential semantics of `update_level` (order_book.hpp lines 122-157).
The scan walks the side in index order.  At an invalid slot the
compare-exchange claims it (running alone it always succeeds), the payload
is written and the call returns true.  At a valid slot whose price matches,
size 0 withdraws the level (store `valid = false`, payload left in place)
and any other size overwrites `size` and `timestamp_ns` in place, returning
true either way.  If the scan ends without placement the call fails. -/
def updateLevel : List PriceLevel → ℚ → ℤ → ℕ → Bool × List PriceLevel
  | [], _, _, _ => (false, [])
  | l :: ls, price, size, ts =>
    if l.valid = false then
      (true, ⟨price, size, ts, true⟩ :: ls)
    else if l.price = price then
      if size = 0 then
        (true, { l with valid := false } :: ls)
      else
        (true, { l with size := size, timestamp_ns := ts } :: ls)
    else
      let r := updateLevel ls price size ts
      (r.1, l :: r.2)

/-- `update_bid` (order_book.hpp lines 45-47): run the update scan on the
bid table, returning the success flag and the new book. -/
def update_bid (price : ℚ) (size : ℤ) (ts : ℕ) (book : OrderBook) :
    Bool × OrderBook :=
  let r := updateLevel book.bids price size ts
  (r.1, ⟨r.2, book.asks⟩)

/-- `update_ask` (order_book.hpp lines 51-53): the same scan on the ask
table. -/
def update_ask (price : ℚ) (size : ℤ) (ts : ℕ) (book : OrderBook) :
    Bool × OrderBook :=
  let r := updateLevel book.asks price size ts
  (r.1, ⟨book.bids, r.2⟩)

/-- Scan loop of `get_best_bid` (order_book.hpp lines 56-73): `bp` is the
running `best_price` (initially 0.0) and `best` the running `best_level`
(initially null); a valid slot strictly above `bp` replaces both. -/
def bestBidAux : List PriceLevel → ℚ → Option PriceLevel → Option PriceLevel
  | [], _, best => best
  | l :: ls, bp, best =>
    if l.valid = true then
      if bp < l.price then bestBidAux ls l.price (some l)
      else bestBidAux ls bp best
    else bestBidAux ls bp best

/-- `get_best_bid` (order_book.hpp lines 56-73): highest-priced valid bid
slot, copied by value, or none. -/
def get_best_bid (book : OrderBook) : Option PriceLevel :=
  bestBidAux book.bids 0 none

/-- Scan loop of `get_best_ask` (order_book.hpp lines 76-93): `ap` is the
running `best_price` (initially `DBL_MAX`); a valid slot strictly below it
replaces both accumulators. -/
def bestAskAux : List PriceLevel → ℚ → Option PriceLevel → Option PriceLevel
  | [], _, best => best
  | l :: ls, ap, best =>
    if l.valid = true then
      if l.price < ap then bestAskAux ls l.price (some l)
      else bestAskAux ls ap best
    else bestAskAux ls ap best

/-- `get_best_ask` (order_book.hpp lines 76-93): lowest-priced valid ask
slot, copied by value, or none. -/
def get_best_ask (book : OrderBook) : Option PriceLevel :=
  bestAskAux book.asks dblMax none

/-- `get_mid_price` (order_book.hpp lines 96-104): average of the two best
prices when both sides produced a snapshot, otherwise none. -/
def get_mid_price (book : OrderBook) : Option ℚ :=
  match get_best_bid book, get_best_ask book with
  | some b, some a => some ((b.price + a.price) / 2)
  | _, _ => none

/-- `get_spread` (order_book.hpp lines 107-115): best ask price minus best
bid price when both sides produced a snapshot, otherwise none. -/
def get_spread (book : OrderBook) : Option ℚ :=
  match get_best_bid book, get_best_ask book with
  | some b, some a => some (a.price - b.price)
  | _, _ => none

/-- One call of the public update API, used to describe sequences of
operations on a book. -/
inductive BookOp where
  | bid (price : ℚ) (size : ℤ) (ts : ℕ)
  | ask (price : ℚ) (size : ℤ) (ts : ℕ)
deriving DecidableEq

/-- Apply one update call to the book, discarding the success flag. -/
def applyOp (book : OrderBook) : BookOp → OrderBook
  | .bid p s t => (update_bid p s t book).2
  | .ask p s t => (update_ask p s t book).2

/-- Apply a sequence of update calls from left to right. -/
def applyOps (book : OrderBook) (ops : List BookOp) : OrderBook :=
  ops.foldl applyOp book

/-- Size argument of an update call. -/
def opSize : BookOp → ℤ
  | .bid _ s _ => s
  | .ask _ s _ => s

/-- Does the operation update the bid side at price `p`? -/
def opTouchesBidPrice (p : ℚ) : BookOp → Bool
  | .bid q _ _ => decide (q = p)
  | .ask _ _ _ => false

/-- Does the operation update the ask side at price `p`? -/
def opTouchesAskPrice (p : ℚ) : BookOp → Bool
  | .bid _ _ _ => false
  | .ask q _ _ => decide (q = p)

/-- No valid slot of the table holds price `p`. -/
def noValidAt (p : ℚ) (ls : List PriceLevel) : Bool :=
  ls.all fun m => !m.valid || !(decide (m.price = p))

/-- Some valid slot of the table holds price `p`. -/
def hasValidAt (p : ℚ) (ls : List PriceLevel) : Bool :=
  ls.any fun m => m.valid && decide (m.price = p)

/-- Every slot of the table is invalid. -/
def allInvalid (ls : List PriceLevel) : Bool :=
  ls.all fun m => !m.valid

/-- Success condition of the update scan: some slot is invalid, or some
valid slot already holds the price. -/
def updateAccepts (p : ℚ) (ls : List PriceLevel) : Bool :=
  (ls.any fun l => !l.valid) || (ls.any fun l => l.valid && decide (l.price = p))

/-- No two valid slots of the table hold the same price. -/
def dedupOk : List PriceLevel → Bool
  | [] => true
  | l :: ls => (!l.valid || noValidAt l.price ls) && dedupOk ls

/-- Every valid slot of the table holds a positive size. -/
def sizesPos (ls : List PriceLevel) : Bool :=
  ls.all fun m => !m.valid || decide (0 < m.size)

/-- All valid slots of the table sit at smaller indices than all invalid
slots (true after construction and preserved by withdrawal-free updates). -/
def packed : List PriceLevel → Bool
  | [] => true
  | l :: ls => if l.valid then packed ls else allInvalid ls

/-- Exactly one valid slot of the table holds price `p`, and every slot at
a smaller index is valid: precisely the states in which the update scan at
price `p` reaches that slot rather than claiming a hole first. -/
def uniqueRemovable (p : ℚ) : List PriceLevel → Bool
  | [] => false
  | l :: ls =>
    l.valid && (if l.price = p then noValidAt p ls else uniqueRemovable p ls)

/-! Branch equations for one step of the update scan. -/

theorem valid_eq_true (l : PriceLevel) (hv : ¬ l.valid = false) : l.valid = true := by
  cases hb : l.valid
  · exact absurd hb hv
  · rfl

theorem updateLevel_cons_claim (l : PriceLevel) (ls : List PriceLevel)
    (p : ℚ) (s : ℤ) (t : ℕ) (hv : l.valid = false) :
    updateLevel (l :: ls) p s t = (true, ⟨p, s, t, true⟩ :: ls) := by
  simp [updateLevel, hv]

theorem updateLevel_cons_withdraw (l : PriceLevel) (ls : List PriceLevel)
    (p : ℚ) (t : ℕ) (hv : l.valid = true) (hp : l.price = p) :
    updateLevel (l :: ls) p 0 t = (true, { l with valid := false } :: ls) := by
  simp [updateLevel, hv, hp]

theorem updateLevel_cons_overwrite (l : PriceLevel) (ls : List PriceLevel)
    (p : ℚ) (s : ℤ) (t : ℕ) (hv : l.valid = true) (hp : l.price = p)
    (hs : s ≠ 0) :
    updateLevel (l :: ls) p s t =
      (true, { l with size := s, timestamp_ns := t } :: ls) := by
  simp [updateLevel, hv, hp, hs]

theorem updateLevel_cons_skip (l : PriceLevel) (ls : List PriceLevel)
    (p : ℚ) (s : ℤ) (t : ℕ) (hv : l.valid = true) (hp : l.price ≠ p) :
    updateLevel (l :: ls) p s t =
      ((updateLevel ls p s t).1, l :: (updateLevel ls p s t).2) := by
  simp [updateLevel, hv, hp]

/-! Basic lemmas about the update scan. -/

theorem updateLevel_fst (ls : List PriceLevel) (p : ℚ) (s : ℤ) (t : ℕ) :
    (updateLevel ls p s t).1 = updateAccepts p ls := by
  induction ls with
  | nil => rfl
  | cons l ls ih =>
    by_cases hv : l.valid = false
    · rw [updateLevel_cons_claim l ls p s t hv]
      simp [updateAccepts, hv]
    · have hv' := valid_eq_true l hv
      by_cases hp : l.price = p
      · by_cases hs : s = 0
        · subst hs
          rw [updateLevel_cons_withdraw l ls p t hv' hp]
          simp [updateAccepts, hv', hp]
        · rw [updateLevel_cons_overwrite l ls p s t hv' hp hs]
          simp [updateAccepts, hv', hp]
      · rw [updateLevel_cons_skip l ls p s t hv' hp]
        simp only [updateAccepts, List.any_cons, Bool.or_eq_true] at ih ⊢
        simp [hv', hp, ih]

theorem updateLevel_false_eq (ls : List PriceLevel) (p : ℚ) (s : ℤ) (t : ℕ)
    (h : (updateLevel ls p s t).1 = false) :
    (updateLevel ls p s t).2 = ls := by
  induction ls with
  | nil => rfl
  | cons l ls ih =>
    by_cases hv : l.valid = false
    · rw [updateLevel_cons_claim l ls p s t hv] at h
      exact absurd h (by simp)
    · have hv' := valid_eq_true l hv
      by_cases hp : l.price = p
      · by_cases hs : s = 0
        · subst hs
          rw [updateLevel_cons_withdraw l ls p t hv' hp] at h
          exact absurd h (by simp)
        · rw [updateLevel_cons_overwrite l ls p s t hv' hp hs] at h
          exact absurd h (by simp)
      · rw [updateLevel_cons_skip l ls p s t hv' hp] at h ⊢
        simp only at h
        rw [ih h]

theorem updateLevel_noValid (ls : List PriceLevel) (p : ℚ) (s : ℤ) (t : ℕ)
    (q : ℚ) (hq : q ≠ p) (h : noValidAt q ls = true) :
    noValidAt q (updateLevel ls p s t).2 = true := by
  induction ls with
  | nil => simpa [updateLevel] using h
  | cons l ls ih =>
    simp only [noValidAt, List.all_cons, Bool.and_eq_true] at h
    by_cases hv : l.valid = false
    · rw [updateLevel_cons_claim l ls p s t hv]
      simp only [noValidAt, List.all_cons, Bool.and_eq_true]
      refine ⟨?_, h.2⟩
      simp [Ne.symm hq]
    · have hv' := valid_eq_true l hv
      by_cases hp : l.price = p
      · by_cases hs : s = 0
        · subst hs
          rw [updateLevel_cons_withdraw l ls p t hv' hp]
          simp only [noValidAt, List.all_cons, Bool.and_eq_true]
          exact ⟨by simp, h.2⟩
        · rw [updateLevel_cons_overwrite l ls p s t hv' hp hs]
          simp only [noValidAt, List.all_cons, Bool.and_eq_true]
          exact ⟨h.1, h.2⟩
      · rw [updateLevel_cons_skip l ls p s t hv' hp]
        simp only [noValidAt, List.all_cons, Bool.and_eq_true]
        exact ⟨h.1, ih h.2⟩

theorem updateLevel_hasValid (ls : List PriceLevel) (p : ℚ) (s : ℤ) (t : ℕ)
    (hs : s ≠ 0) (h : (updateLevel ls p s t).1 = true) :
    hasValidAt p (updateLevel ls p s t).2 = true := by
  induction ls with
  | nil => simp [updateLevel] at h
  | cons l ls ih =>
    by_cases hv : l.valid = false
    · rw [updateLevel_cons_claim l ls p s t hv]
      simp [hasValidAt]
    · have hv' := valid_eq_true l hv
      by_cases hp : l.price = p
      · rw [updateLevel_cons_overwrite l ls p s t hv' hp hs]
        simp [hasValidAt, hv', hp]
      · rw [updateLevel_cons_skip l ls p s t hv' hp] at h ⊢
        simp only at h
        simp only [hasValidAt, List.any_cons, Bool.or_eq_true]
        exact Or.inr (ih h)

theorem updateLevel_hasValid_preserved (ls : List PriceLevel) (p q : ℚ)
    (s : ℤ) (t : ℕ) (hq : q ≠ p) (h : hasValidAt p ls = true) :
    hasValidAt p (updateLevel ls q s t).2 = true := by
  induction ls with
  | nil => exact h
  | cons l ls ih =>
    simp only [hasValidAt, List.any_cons, Bool.or_eq_true] at h
    by_cases hv : l.valid = false
    · rw [updateLevel_cons_claim l ls q s t hv]
      simp only [hasValidAt, List.any_cons, Bool.or_eq_true]
      rcases h with h | h
      · simp [hv] at h
      · exact Or.inr h
    · have hv' := valid_eq_true l hv
      by_cases hp : l.price = q
      · by_cases hs : s = 0
        · subst hs
          rw [updateLevel_cons_withdraw l ls q t hv' hp]
          simp only [hasValidAt, List.any_cons, Bool.or_eq_true]
          rcases h with h | h
          · simp only [Bool.and_eq_true, decide_eq_true_eq] at h
            exact absurd (hp.symm.trans h.2) hq
          · exact Or.inr h
        · rw [updateLevel_cons_overwrite l ls q s t hv' hp hs]
          simp only [hasValidAt, List.any_cons, Bool.or_eq_true]
          exact h
      · rw [updateLevel_cons_skip l ls q s t hv' hp]
        simp only [hasValidAt, List.any_cons, Bool.or_eq_true]
        rcases h with h | h
        · exact Or.inl h
        · exact Or.inr (ih h)

theorem updateLevel_withdraw (ls : List PriceLevel) (p : ℚ) (t : ℕ)
    (h : uniqueRemovable p ls = true) :
    noValidAt p (updateLevel ls p 0 t).2 = true := by
  induction ls with
  | nil => simp [uniqueRemovable] at h
  | cons l ls ih =>
    simp only [uniqueRemovable, Bool.and_eq_true] at h
    obtain ⟨hv', hrest⟩ := h
    by_cases hp : l.price = p
    · rw [updateLevel_cons_withdraw l ls p t hv' hp]
      simp only [noValidAt, List.all_cons, Bool.and_eq_true]
      refine ⟨by simp, ?_⟩
      simpa [hp, noValidAt] using hrest
    · rw [updateLevel_cons_skip l ls p 0 t hv' hp]
      simp only [noValidAt, List.all_cons, Bool.and_eq_true]
      refine ⟨by simp [hp], ?_⟩
      exact ih (by simpa [hp] using hrest)

theorem updateLevel_idem (ls : List PriceLevel) (p : ℚ) (s : ℤ) (t : ℕ)
    (hs : s ≠ 0) :
    (updateLevel (updateLevel ls p s t).2 p s t).2 = (updateLevel ls p s t).2 := by
  induction ls with
  | nil => rfl
  | cons l ls ih =>
    by_cases hv : l.valid = false
    · rw [updateLevel_cons_claim l ls p s t hv]
      simp only
      rw [updateLevel_cons_overwrite ⟨p, s, t, true⟩ ls p s t rfl rfl hs]
    · have hv' := valid_eq_true l hv
      by_cases hp : l.price = p
      · rw [updateLevel_cons_overwrite l ls p s t hv' hp hs]
        simp only
        rw [updateLevel_cons_overwrite { l with size := s, timestamp_ns := t }
          ls p s t hv' hp hs]
      · rw [updateLevel_cons_skip l ls p s t hv' hp]
        simp only
        rw [updateLevel_cons_skip l (updateLevel ls p s t).2 p s t hv' hp]
        simp only at ih ⊢
        rw [ih]

/-! Helpers about all-invalid tables and invariant preservation. -/

theorem allInvalid_noValidAt (ls : List PriceLevel) (q : ℚ)
    (h : allInvalid ls = true) : noValidAt q ls = true := by
  simp only [allInvalid, List.all_eq_true] at h
  simp only [noValidAt, List.all_eq_true]
  intro m hm
  simp [h m hm]

theorem allInvalid_dedupOk (ls : List PriceLevel)
    (h : allInvalid ls = true) : dedupOk ls = true := by
  induction ls with
  | nil => rfl
  | cons l ls ih =>
    simp only [allInvalid, List.all_cons, Bool.and_eq_true] at h
    simp only [dedupOk, Bool.and_eq_true]
    exact ⟨by simp [h.1], ih h.2⟩

theorem allInvalid_packed (ls : List PriceLevel)
    (h : allInvalid ls = true) : packed ls = true := by
  cases ls with
  | nil => rfl
  | cons l ls =>
    simp only [allInvalid, List.all_cons, Bool.and_eq_true] at h
    have hv : l.valid = false := by simpa using h.1
    simp [packed, hv]
    exact h.2

theorem updateLevel_packed_dedup (ls : List PriceLevel) (p : ℚ) (s : ℤ)
    (t : ℕ) (hs : s ≠ 0) (hpk : packed ls = true) (hd : dedupOk ls = true) :
    packed (updateLevel ls p s t).2 = true ∧
      dedupOk (updateLevel ls p s t).2 = true := by
  induction ls with
  | nil => exact ⟨rfl, rfl⟩
  | cons l ls ih =>
    simp only [dedupOk, Bool.and_eq_true] at hd
    by_cases hv : l.valid = false
    · have hall : allInvalid ls = true := by simpa [packed, hv] using hpk
      rw [updateLevel_cons_claim l ls p s t hv]
      constructor
      · simp [packed, allInvalid_packed ls hall]
      · simp only [dedupOk, Bool.and_eq_true]
        exact ⟨by simp [allInvalid_noValidAt ls p hall], allInvalid_dedupOk ls hall⟩
    · have hv' := valid_eq_true l hv
      have hpk' : packed ls = true := by simpa [packed, hv'] using hpk
      by_cases hp : l.price = p
      · rw [updateLevel_cons_overwrite l ls p s t hv' hp hs]
        constructor
        · simpa [packed, hv'] using hpk'
        · simp only [dedupOk, Bool.and_eq_true]
          exact ⟨hd.1, hd.2⟩
      · rw [updateLevel_cons_skip l ls p s t hv' hp]
        obtain ⟨ihp, ihd⟩ := ih hpk' hd.2
        constructor
        · simpa [packed, hv'] using ihp
        · simp only [dedupOk, Bool.and_eq_true]
          refine ⟨?_, ihd⟩
          have hnv : noValidAt l.price ls = true := by simpa [hv'] using hd.1
          simp [updateLevel_noValid ls p s t l.price hp hnv]

theorem updateLevel_sizesPos (ls : List PriceLevel) (p : ℚ) (s : ℤ) (t : ℕ)
    (hs : 0 < s) (h : sizesPos ls = true) :
    sizesPos (updateLevel ls p s t).2 = true := by
  induction ls with
  | nil => exact h
  | cons l ls ih =>
    simp only [sizesPos, List.all_cons, Bool.and_eq_true] at h
    by_cases hv : l.valid = false
    · rw [updateLevel_cons_claim l ls p s t hv]
      simp only [sizesPos, List.all_cons, Bool.and_eq_true]
      exact ⟨by simp [hs], h.2⟩
    · have hv' := valid_eq_true l hv
      by_cases hp : l.price = p
      · rw [updateLevel_cons_overwrite l ls p s t hv' hp (by omega)]
        simp only [sizesPos, List.all_cons, Bool.and_eq_true]
        exact ⟨by simp [hs], h.2⟩
      · rw [updateLevel_cons_skip l ls p s t hv' hp]
        simp only [sizesPos, List.all_cons, Bool.and_eq_true]
        exact ⟨h.1, ih h.2⟩

/-! Lemmas about the best-bid scan. -/

theorem bestBidAux_none (ls : List PriceLevel) (bp : ℚ)
    (best : Option PriceLevel)
    (h : ∀ l ∈ ls, l.valid = true → l.price ≤ bp) :
    bestBidAux ls bp best = best := by
  induction ls generalizing bp best with
  | nil => rfl
  | cons l ls ih =>
    by_cases hv : l.valid = true
    · have hnlt : ¬ bp < l.price := not_lt.mpr (h l (by simp) hv)
      simp only [bestBidAux, hv, if_true, hnlt, if_false]
      exact ih bp best fun m hm => h m (by simp [hm])
    · simp only [bestBidAux, hv, if_false]
      exact ih bp best fun m hm => h m (by simp [hm])

theorem bestBidAux_found (ls : List PriceLevel) :
    ∀ (bp : ℚ) (best : Option PriceLevel),
      (∃ l ∈ ls, l.valid = true ∧ bp < l.price) →
      ∃ r, bestBidAux ls bp best = some r ∧ r ∈ ls ∧ r.valid = true ∧
        bp < r.price ∧ ∀ l ∈ ls, l.valid = true → l.price ≤ r.price := by
  induction ls with
  | nil =>
    intro bp best h
    simp at h
  | cons l ls ih =>
    intro bp best h
    by_cases hcase : l.valid = true ∧ bp < l.price
    · obtain ⟨hv, hlt⟩ := hcase
      by_cases htail : ∃ m ∈ ls, m.valid = true ∧ l.price < m.price
      · obtain ⟨r, hr, hmem, hrv, hrlt, hmax⟩ := ih l.price (some l) htail
        refine ⟨r, ?_, by simp [hmem], hrv, lt_trans hlt hrlt, ?_⟩
        · simp only [bestBidAux, hv, if_true, hlt, hr]
        · intro m hm hmv
          rcases List.mem_cons.mp hm with rfl | hm2
          · exact le_of_lt hrlt
          · exact hmax m hm2 hmv
      · push_neg at htail
        have hnone := bestBidAux_none ls l.price (some l)
          fun m hm hmv => htail m hm hmv
        refine ⟨l, ?_, by simp, hv, hlt, ?_⟩
        · simp only [bestBidAux, hv, if_true, hlt, hnone]
        · intro m hm hmv
          rcases List.mem_cons.mp hm with rfl | hm2
          · exact le_refl _
          · exact htail m hm2 hmv
    · have hh : ∃ m ∈ ls, m.valid = true ∧ bp < m.price := by
        obtain ⟨w, hw, hwv, hwlt⟩ := h
        rcases List.mem_cons.mp hw with rfl | hw2
        · exact absurd ⟨hwv, hwlt⟩ hcase
        · exact ⟨w, hw2, hwv, hwlt⟩
      obtain ⟨r, hr, hmem, hrv, hrlt, hmax⟩ := ih bp best hh
      refine ⟨r, ?_, by simp [hmem], hrv, hrlt, ?_⟩
      · by_cases hv : l.valid = true
        · have hnlt : ¬ bp < l.price := fun hlt => hcase ⟨hv, hlt⟩
          simp [bestBidAux, hv, hnlt, hr]
        · simp [bestBidAux, hv, hr]
      · intro m hm hmv
        rcases List.mem_cons.mp hm with rfl | hm2
        · have hnlt : ¬ bp < m.price := fun hlt => hcase ⟨hmv, hlt⟩
          exact le_trans (not_lt.mp hnlt) (le_of_lt hrlt)
        · exact hmax m hm2 hmv

theorem bestBidAux_some (ls : List PriceLevel) :
    ∀ (bp : ℚ) (best : Option PriceLevel) (r : PriceLevel),
      bestBidAux ls bp best = some r →
      (r ∈ ls ∧ r.valid = true) ∨ best = some r := by
  induction ls with
  | nil =>
    intro bp best r h
    exact Or.inr h
  | cons l ls ih =>
    intro bp best r h
    by_cases hv : l.valid = true
    · by_cases hlt : bp < l.price
      · simp only [bestBidAux, hv, if_true, hlt] at h
        rcases ih l.price (some l) r h with ⟨hm, hv2⟩ | heq
        · exact Or.inl ⟨by simp [hm], hv2⟩
        · injection heq with heq2
          subst heq2
          exact Or.inl ⟨by simp, hv⟩
      · simp only [bestBidAux, hv, if_true, hlt, if_false] at h
        rcases ih bp best r h with ⟨hm, hv2⟩ | heq
        · exact Or.inl ⟨by simp [hm], hv2⟩
        · exact Or.inr heq
    · simp only [bestBidAux, hv, if_false] at h
      rcases ih bp best r h with ⟨hm, hv2⟩ | heq
      · exact Or.inl ⟨by simp [hm], hv2⟩
      · exact Or.inr heq

/-! Lemmas about the best-ask scan, mirrors of the bid ones. -/

theorem bestAskAux_none (ls : List PriceLevel) (ap : ℚ)
    (best : Option PriceLevel)
    (h : ∀ l ∈ ls, l.valid = true → ap ≤ l.price) :
    bestAskAux ls ap best = best := by
  induction ls generalizing ap best with
  | nil => rfl
  | cons l ls ih =>
    by_cases hv : l.valid = true
    · have hnlt : ¬ l.price < ap := not_lt.mpr (h l (by simp) hv)
      simp only [bestAskAux, hv, if_true, hnlt, if_false]
      exact ih ap best fun m hm => h m (by simp [hm])
    · simp only [bestAskAux, hv, if_false]
      exact ih ap best fun m hm => h m (by simp [hm])

theorem bestAskAux_found (ls : List PriceLevel) :
    ∀ (ap : ℚ) (best : Option PriceLevel),
      (∃ l ∈ ls, l.valid = true ∧ l.price < ap) →
      ∃ r, bestAskAux ls ap best = some r ∧ r ∈ ls ∧ r.valid = true ∧
        r.price < ap ∧ ∀ l ∈ ls, l.valid = true → r.price ≤ l.price := by
  induction ls with
  | nil =>
    intro ap best h
    simp at h
  | cons l ls ih =>
    intro ap best h
    by_cases hcase : l.valid = true ∧ l.price < ap
    · obtain ⟨hv, hlt⟩ := hcase
      by_cases htail : ∃ m ∈ ls, m.valid = true ∧ m.price < l.price
      · obtain ⟨r, hr, hmem, hrv, hrlt, hmin⟩ := ih l.price (some l) htail
        refine ⟨r, ?_, by simp [hmem], hrv, lt_trans hrlt hlt, ?_⟩
        · simp only [bestAskAux, hv, if_true, hlt, hr]
        · intro m hm hmv
          rcases List.mem_cons.mp hm with rfl | hm2
          · exact le_of_lt hrlt
          · exact hmin m hm2 hmv
      · push_neg at htail
        have hnone := bestAskAux_none ls l.price (some l)
          fun m hm hmv => htail m hm hmv
        refine ⟨l, ?_, by simp, hv, hlt, ?_⟩
        · simp only [bestAskAux, hv, if_true, hlt, hnone]
        · intro m hm hmv
          rcases List.mem_cons.mp hm with rfl | hm2
          · exact le_refl _
          · exact htail m hm2 hmv
    · have hh : ∃ m ∈ ls, m.valid = true ∧ m.price < ap := by
        obtain ⟨w, hw, hwv, hwlt⟩ := h
        rcases List.mem_cons.mp hw with rfl | hw2
        · exact absurd ⟨hwv, hwlt⟩ hcase
        · exact ⟨w, hw2, hwv, hwlt⟩
      obtain ⟨r, hr, hmem, hrv, hrlt, hmin⟩ := ih ap best hh
      refine ⟨r, ?_, by simp [hmem], hrv, hrlt, ?_⟩
      · by_cases hv : l.valid = true
        · have hnlt : ¬ l.price < ap := fun hlt => hcase ⟨hv, hlt⟩
          simp [bestAskAux, hv, hnlt, hr]
        · simp [bestAskAux, hv, hr]
      · intro m hm hmv
        rcases List.mem_cons.mp hm with rfl | hm2
        · have hnlt : ¬ m.price < ap := fun hlt => hcase ⟨hmv, hlt⟩
          exact le_trans (le_of_lt hrlt) (not_lt.mp hnlt)
        · exact hmin m hm2 hmv

theorem bestAskAux_some (ls : List PriceLevel) :
    ∀ (ap : ℚ) (best : Option PriceLevel) (r : PriceLevel),
      bestAskAux ls ap best = some r →
      (r ∈ ls ∧ r.valid = true) ∨ best = some r := by
  induction ls with
  | nil =>
    intro ap best r h
    exact Or.inr h
  | cons l ls ih =>
    intro ap best r h
    by_cases hv : l.valid = true
    · by_cases hlt : l.price < ap
      · simp only [bestAskAux, hv, if_true, hlt] at h
        rcases ih l.price (some l) r h with ⟨hm, hv2⟩ | heq
        · exact Or.inl ⟨by simp [hm], hv2⟩
        · injection heq with heq2
          subst heq2
          exact Or.inl ⟨by simp, hv⟩
      · simp only [bestAskAux, hv, if_true, hlt, if_false] at h
        rcases ih ap best r h with ⟨hm, hv2⟩ | heq
        · exact Or.inl ⟨by simp [hm], hv2⟩
        · exact Or.inr heq
    · simp [bestAskAux, hv] at h
      rcases ih ap best r h with ⟨hm, hv2⟩ | heq
      · exact Or.inl ⟨by simp [hm], hv2⟩
      · exact Or.inr heq

/-! Lemmas about sequences of operations on a whole book. -/

theorem allInvalid_replicate (n : ℕ) :
    allInvalid (List.replicate n emptyLevel) = true := by
  simp only [allInvalid, List.all_eq_true]
  intro m hm
  rw [List.eq_of_mem_replicate hm]
  rfl

theorem applyOps_cons (book : OrderBook) (op : BookOp) (ops : List BookOp) :
    applyOps book (op :: ops) = applyOps (applyOp book op) ops := rfl

theorem applyOps_noValidBid (ops : List BookOp) :
    ∀ (book : OrderBook) (p : ℚ),
      (∀ op ∈ ops, opTouchesBidPrice p op = false) →
      noValidAt p book.bids = true →
      noValidAt p (applyOps book ops).bids = true := by
  induction ops with
  | nil =>
    intro book p _ h
    exact h
  | cons op ops ih =>
    intro book p hops h
    rw [applyOps_cons]
    refine ih (applyOp book op) p (fun o ho => hops o (by simp [ho])) ?_
    cases op with
    | bid q s t =>
      have hq : ¬ q = p := by
        simpa [opTouchesBidPrice] using hops (.bid q s t) (by simp)
      exact updateLevel_noValid book.bids q s t p (fun hh => hq hh.symm) h
    | ask q s t => exact h

theorem applyOps_noValidAsk (ops : List BookOp) :
    ∀ (book : OrderBook) (p : ℚ),
      (∀ op ∈ ops, opTouchesAskPrice p op = false) →
      noValidAt p book.asks = true →
      noValidAt p (applyOps book ops).asks = true := by
  induction ops with
  | nil =>
    intro book p _ h
    exact h
  | cons op ops ih =>
    intro book p hops h
    rw [applyOps_cons]
    refine ih (applyOp book op) p (fun o ho => hops o (by simp [ho])) ?_
    cases op with
    | bid q s t => exact h
    | ask q s t =>
      have hq : ¬ q = p := by
        simpa [opTouchesAskPrice] using hops (.ask q s t) (by simp)
      exact updateLevel_noValid book.asks q s t p (fun hh => hq hh.symm) h

theorem applyOps_hasValidBid (ops : List BookOp) :
    ∀ (book : OrderBook) (p : ℚ),
      (∀ op ∈ ops, opTouchesBidPrice p op = false) →
      hasValidAt p book.bids = true →
      hasValidAt p (applyOps book ops).bids = true := by
  induction ops with
  | nil =>
    intro book p _ h
    exact h
  | cons op ops ih =>
    intro book p hops h
    rw [applyOps_cons]
    refine ih (applyOp book op) p (fun o ho => hops o (by simp [ho])) ?_
    cases op with
    | bid q s t =>
      have hq : ¬ q = p := by
        simpa [opTouchesBidPrice] using hops (.bid q s t) (by simp)
      exact updateLevel_hasValid_preserved book.bids p q s t hq h
    | ask q s t => exact h

/-- Both sides are packed (valid slots first) and free of duplicated
prices. -/
def noDupSides (book : OrderBook) : Bool :=
  packed book.bids && dedupOk book.bids && packed book.asks && dedupOk book.asks

theorem applyOps_noDup (ops : List BookOp) :
    ∀ book : OrderBook, (∀ op ∈ ops, opSize op ≠ 0) →
      noDupSides book = true → noDupSides (applyOps book ops) = true := by
  induction ops with
  | nil =>
    intro book _ h
    exact h
  | cons op ops ih =>
    intro book hops h
    rw [applyOps_cons]
    refine ih (applyOp book op) (fun o ho => hops o (by simp [ho])) ?_
    simp only [noDupSides, Bool.and_eq_true] at h
    obtain ⟨⟨⟨hpb, hdb⟩, hpa⟩, hda⟩ := h
    cases op with
    | bid q s t =>
      have hs : s ≠ 0 := by simpa [opSize] using hops (.bid q s t) (by simp)
      obtain ⟨h1, h2⟩ := updateLevel_packed_dedup book.bids q s t hs hpb hdb
      simp [noDupSides, applyOp, update_bid, h1, h2, hpa, hda]
    | ask q s t =>
      have hs : s ≠ 0 := by simpa [opSize] using hops (.ask q s t) (by simp)
      obtain ⟨h1, h2⟩ := updateLevel_packed_dedup book.asks q s t hs hpa hda
      simp [noDupSides, applyOp, update_ask, h1, h2, hpb, hdb]

/-- Every valid slot on either side holds a positive size. -/
def posSides (book : OrderBook) : Bool :=
  sizesPos book.bids && sizesPos book.asks

theorem applyOps_pos (ops : List BookOp) :
    ∀ book : OrderBook, (∀ op ∈ ops, 0 < opSize op) →
      posSides book = true → posSides (applyOps book ops) = true := by
  induction ops with
  | nil =>
    intro book _ h
    exact h
  | cons op ops ih =>
    intro book hops h
    rw [applyOps_cons]
    refine ih (applyOp book op) (fun o ho => hops o (by simp [ho])) ?_
    simp only [posSides, Bool.and_eq_true] at h
    cases op with
    | bid q s t =>
      have hs : 0 < s := by simpa [opSize] using hops (.bid q s t) (by simp)
      simp [posSides, applyOp, update_bid,
        updateLevel_sizesPos book.bids q s t hs h.1, h.2]
    | ask q s t =>
      have hs : 0 < s := by simpa [opSize] using hops (.ask q s t) (by simp)
      simp [posSides, applyOp, update_ask,
        updateLevel_sizesPos book.asks q s t hs h.2, h.1]

/-- Characterisation of the failing update: the scan returns false exactly
when every slot of the side is valid and none of them holds the requested
price. -/
theorem updateLevel_false_iff (ls : List PriceLevel) (p : ℚ) (s : ℤ) (t : ℕ) :
    (updateLevel ls p s t).1 = false ↔
      (∀ l ∈ ls, l.valid = true) ∧ ∀ l ∈ ls, l.price ≠ p := by
  rw [updateLevel_fst]
  constructor
  · intro h
    simp only [updateAccepts, Bool.or_eq_false_iff, List.any_eq_false] at h
    obtain ⟨h1, h2⟩ := h
    have hv : ∀ l ∈ ls, l.valid = true := by
      intro l hl
      simpa using h1 l hl
    refine ⟨hv, ?_⟩
    intro l hl
    have := h2 l hl
    simpa [hv l hl] using this
  · intro h
    simp only [updateAccepts, Bool.or_eq_false_iff, List.any_eq_false]
    constructor
    · intro l hl
      simp [h.1 l hl]
    · intro l hl
      simp [h.1 l hl, h.2 l hl]

theorem allInvalid_sizesPos (ls : List PriceLevel)
    (h : allInvalid ls = true) : sizesPos ls = true := by
  simp only [allInvalid, List.all_eq_true] at h
  simp only [sizesPos, List.all_eq_true]
  intro m hm
  simp [h m hm]

/-! Claims. -/

/-- Claim C1, counterexample: the claim fails as stated.  On a fresh
one-slot book the withdrawal call `update_bid(5, 0, 1)` itself claims the
empty slot and stores a valid level with price 5 and size 0, so the very
next `get_best_bid` (with no intervening operation at all) returns a
snapshot with price 5. -/
theorem c1_withdrawal_cex :
    (update_bid 5 0 1 (emptyBook 1)).1 = true ∧
      get_best_bid (update_bid 5 0 1 (emptyBook 1)).2 =
        some ⟨5, 0, 1, true⟩ := by
  constructor <;> decide

/-- Claim C1 (amended): if before `update_bid(p, 0, t)` exactly one valid
bid slot holds price p and every slot before it is valid — so the
withdrawal scan reaches that slot instead of claiming a hole — then after
the call no subsequent `get_best_bid` returns a snapshot with price p, for
every sequence of intervening operations whose bid updates avoid price p;
symmetrically for `update_ask` / `get_best_ask`. -/
theorem c1_withdrawal :
    (∀ (book : OrderBook) (p : ℚ) (t : ℕ) (ops : List BookOp)
        (r : PriceLevel),
      uniqueRemovable p book.bids = true →
      (∀ op ∈ ops, opTouchesBidPrice p op = false) →
      get_best_bid (applyOps (update_bid p 0 t book).2 ops) = some r →
      r.price ≠ p) ∧
    (∀ (book : OrderBook) (p : ℚ) (t : ℕ) (ops : List BookOp)
        (r : PriceLevel),
      uniqueRemovable p book.asks = true →
      (∀ op ∈ ops, opTouchesAskPrice p op = false) →
      get_best_ask (applyOps (update_ask p 0 t book).2 ops) = some r →
      r.price ≠ p) := by
  constructor
  · intro book p t ops r hb hops hr
    have h1 : noValidAt p (update_bid p 0 t book).2.bids = true := by
      simpa [update_bid] using updateLevel_withdraw book.bids p t hb
    have h2 := applyOps_noValidBid ops (update_bid p 0 t book).2 p hops h1
    rcases bestBidAux_some (applyOps (update_bid p 0 t book).2 ops).bids 0
        none r (by simpa [get_best_bid] using hr) with ⟨hm, hv⟩ | habs
    · simp only [noValidAt, List.all_eq_true] at h2
      have := h2 r hm
      simpa [hv] using this
    · exact absurd habs (by simp)
  · intro book p t ops r hb hops hr
    have h1 : noValidAt p (update_ask p 0 t book).2.asks = true := by
      simpa [update_ask] using updateLevel_withdraw book.asks p t hb
    have h2 := applyOps_noValidAsk ops (update_ask p 0 t book).2 p hops h1
    rcases bestAskAux_some (applyOps (update_ask p 0 t book).2 ops).asks
        dblMax none r (by simpa [get_best_ask] using hr) with ⟨hm, hv⟩ | habs
    · simp only [noValidAt, List.all_eq_true] at h2
      have := h2 r hm
      simpa [hv] using this
    · exact absurd habs (by simp)

/-- Claim C1 witness: a concrete run of the amended statement.  Bids 5 and
3 are published, 5 is withdrawn (its slot is first and unique), a bid at
price 2 fills the hole, and the snapshot returned by `get_best_bid` — the
level (3, 1, 0) — does not carry price 5. -/
theorem c1_withdrawal_wit :
    uniqueRemovable 5
        (applyOps (emptyBook 2) [.bid 5 1 0, .bid 3 1 0]).bids = true ∧
      (⟨3, 1, 0, true⟩ : PriceLevel).price ≠ 5 :=
  ⟨by decide,
    c1_withdrawal.1 (applyOps (emptyBook 2) [.bid 5 1 0, .bid 3 1 0]) 5 1
      [.bid 2 4 2] ⟨3, 1, 0, true⟩ (by decide) (by decide) (by decide)⟩

/-- Claim C2, counterexample: the deduplication invariant fails on a
reachable state.  Publish bids at 1 and 2, withdraw 1 (slot 0 becomes a
hole), then update price 2 again: the scan claims slot 0 before reaching
the valid slot holding 2, so two valid slots share price 2. -/
theorem c2_dedup_cex :
    dedupOk (applyOps (emptyBook 2)
      [.bid 1 5 1, .bid 2 5 2, .bid 1 0 3, .bid 2 7 4]).bids = false := by
  decide

/-- Claim C2 (amended): in every book state reachable from a fresh book by
update calls none of which carries size 0 (no withdrawals), the valid slots
on each side hold pairwise distinct prices. -/
theorem c2_dedup (n : ℕ) (ops : List BookOp)
    (h : ∀ op ∈ ops, opSize op ≠ 0) :
    dedupOk (applyOps (emptyBook n) ops).bids = true ∧
      dedupOk (applyOps (emptyBook n) ops).asks = true := by
  have ha := allInvalid_replicate n
  have h0 : noDupSides (emptyBook n) = true := by
    simp [noDupSides, emptyBook, allInvalid_packed _ ha, allInvalid_dedupOk _ ha]
  have hres := applyOps_noDup ops (emptyBook n) h h0
  simp only [noDupSides, Bool.and_eq_true] at hres
  exact ⟨hres.1.1.2, hres.2⟩

/-- Claim C2 witness: a concrete withdrawal-free run keeps both sides
duplicate-free. -/
theorem c2_dedup_wit :
    dedupOk (applyOps (emptyBook 2) [.bid 1 5 1, .ask 2 5 2]).bids = true ∧
      dedupOk (applyOps (emptyBook 2) [.bid 1 5 1, .ask 2 5 2]).asks = true :=
  c2_dedup 2 [.bid 1 5 1, .ask 2 5 2] (by decide)

/-- Claim C3, counterexample: an update called with size 0 can leave a
valid slot holding size 0 — on a fresh book `update_bid(5, 0, 1)` claims
the first empty slot and stores the level (5, 0, 1) as valid. -/
theorem c3_size_pos_cex :
    ((update_bid 5 0 1 (emptyBook 1)).2).bids.any
      (fun l => l.valid && decide (l.size = 0)) = true := by
  decide

/-- Claim C3 (amended): in every book state reachable from a fresh book by
update calls all of which carry size > 0, every valid slot holds size > 0.
An update with size 0 does not always withdraw: when its scan meets an
empty slot before a valid matching slot it stores a valid size-0 level. -/
theorem c3_size_pos (n : ℕ) (ops : List BookOp)
    (h : ∀ op ∈ ops, 0 < opSize op) :
    sizesPos (applyOps (emptyBook n) ops).bids = true ∧
      sizesPos (applyOps (emptyBook n) ops).asks = true := by
  have ha := allInvalid_replicate n
  have h0 : posSides (emptyBook n) = true := by
    simp [posSides, emptyBook, allInvalid_sizesPos _ ha]
  have hres := applyOps_pos ops (emptyBook n) h h0
  simp only [posSides, Bool.and_eq_true] at hres
  exact ⟨hres.1, hres.2⟩

/-- Claim C3 witness: a concrete positive-size run keeps all valid sizes
positive. -/
theorem c3_size_pos_wit :
    sizesPos (applyOps (emptyBook 2) [.bid 1 5 1, .ask 2 5 2]).bids = true ∧
      sizesPos (applyOps (emptyBook 2) [.bid 1 5 1, .ask 2 5 2]).asks = true :=
  c3_size_pos 2 [.bid 1 5 1, .ask 2 5 2] (by decide)

/-- Claim C4: an update returns false exactly when every slot of its side
is valid and none of them holds the requested price; every other input is
accepted.  In particular, on a capacity-4 book filled with four distinct
bid prices, every fill succeeds, a fifth novel price is refused and a
repeat price is still accepted. -/
theorem c4_capacity :
    (∀ (book : OrderBook) (p : ℚ) (s : ℤ) (t : ℕ),
      ((update_bid p s t book).1 = false ↔
        (∀ l ∈ book.bids, l.valid = true) ∧ ∀ l ∈ book.bids, l.price ≠ p) ∧
      ((update_ask p s t book).1 = false ↔
        (∀ l ∈ book.asks, l.valid = true) ∧ ∀ l ∈ book.asks, l.price ≠ p)) ∧
    ((update_bid 1 10 1 (emptyBook 4)).1 = true ∧
      (update_bid 2 10 2 (applyOps (emptyBook 4) [.bid 1 10 1])).1 = true ∧
      (update_bid 3 10 3
        (applyOps (emptyBook 4) [.bid 1 10 1, .bid 2 10 2])).1 = true ∧
      (update_bid 4 10 4
        (applyOps (emptyBook 4)
          [.bid 1 10 1, .bid 2 10 2, .bid 3 10 3])).1 = true ∧
      (update_bid 5 10 5
        (applyOps (emptyBook 4)
          [.bid 1 10 1, .bid 2 10 2, .bid 3 10 3, .bid 4 10 4])).1 = false ∧
      (update_bid 2 7 5
        (applyOps (emptyBook 4)
          [.bid 1 10 1, .bid 2 10 2, .bid 3 10 3, .bid 4 10 4])).1 = true) := by
  constructor
  · intro book p s t
    constructor
    · simpa [update_bid] using updateLevel_false_iff book.bids p s t
    · simpa [update_ask] using updateLevel_false_iff book.asks p s t
  · refine ⟨?_, ?_, ?_, ?_, ?_, ?_⟩ <;> decide

/-- Claim C4 witness: the failure characterisation applied to the
zero-capacity book, whose bid table is vacuously full of valid slots none
of which holds price 1. -/
theorem c4_capacity_wit : (update_bid 1 2 3 (emptyBook 0)).1 = false :=
  ((c4_capacity.1 (emptyBook 0) 1 2 3).1).mpr ⟨by decide, by decide⟩

/-- Claim C5, counterexample: `get_best_bid` can return the empty optional
while a bid slot is valid.  A bid published at the sentinel price 0 is
stored as a valid slot, but the scan starts its extremum at 0.0 and only a
strictly greater price is picked up. -/
theorem c5_best_cex :
    ((update_bid 0 5 1 (emptyBook 1)).2).bids.any (fun l => l.valid) = true ∧
      get_best_bid (update_bid 0 5 1 (emptyBook 1)).2 = none := by
  constructor <;> decide

/-- Claim C5 (amended): `get_best_bid` returns the empty optional iff no
valid bid slot has price above 0 (a valid slot at price 0 or below is
invisible to the scan); when it returns a snapshot, the snapshot copies a
valid slot holding the maximum price among valid bid slots.  Symmetrically
`get_best_ask` returns empty iff no valid ask slot has price below
DBL_MAX, and otherwise copies a valid slot holding the minimum price. -/
theorem c5_best_query (book : OrderBook) :
    (get_best_bid book = none ↔
      ∀ l ∈ book.bids, l.valid = true → l.price ≤ 0) ∧
    (∀ r, get_best_bid book = some r →
      r ∈ book.bids ∧ r.valid = true ∧ 0 < r.price ∧
        ∀ l ∈ book.bids, l.valid = true → l.price ≤ r.price) ∧
    (get_best_ask book = none ↔
      ∀ l ∈ book.asks, l.valid = true → dblMax ≤ l.price) ∧
    (∀ r, get_best_ask book = some r →
      r ∈ book.asks ∧ r.valid = true ∧ r.price < dblMax ∧
        ∀ l ∈ book.asks, l.valid = true → r.price ≤ l.price) := by
  refine ⟨⟨?_, ?_⟩, ?_, ⟨?_, ?_⟩, ?_⟩
  · intro hnone
    by_contra hc
    push_neg at hc
    obtain ⟨l, hl, hlv, hlp⟩ := hc
    obtain ⟨r, hr, _⟩ := bestBidAux_found book.bids 0 none ⟨l, hl, hlv, hlp⟩
    rw [get_best_bid, hr] at hnone
    exact absurd hnone (by simp)
  · intro h
    exact bestBidAux_none book.bids 0 none h
  · intro r hr
    by_cases hex : ∃ l ∈ book.bids, l.valid = true ∧ (0 : ℚ) < l.price
    · obtain ⟨r2, hr2, hm2, hv2, hlt2, hmax2⟩ :=
        bestBidAux_found book.bids 0 none hex
      rw [get_best_bid, hr2] at hr
      obtain rfl := Option.some.inj hr
      exact ⟨hm2, hv2, hlt2, hmax2⟩
    · push_neg at hex
      have hn := bestBidAux_none book.bids 0 none
        fun l hl hv => hex l hl hv
      rw [get_best_bid, hn] at hr
      exact absurd hr (by simp)
  · intro hnone
    by_contra hc
    push_neg at hc
    obtain ⟨l, hl, hlv, hlp⟩ := hc
    obtain ⟨r, hr, _⟩ := bestAskAux_found book.asks dblMax none ⟨l, hl, hlv, hlp⟩
    rw [get_best_ask, hr] at hnone
    exact absurd hnone (by simp)
  · intro h
    exact bestAskAux_none book.asks dblMax none h
  · intro r hr
    by_cases hex : ∃ l ∈ book.asks, l.valid = true ∧ l.price < dblMax
    · obtain ⟨r2, hr2, hm2, hv2, hlt2, hmin2⟩ :=
        bestAskAux_found book.asks dblMax none hex
      rw [get_best_ask, hr2] at hr
      obtain rfl := Option.some.inj hr
      exact ⟨hm2, hv2, hlt2, hmin2⟩
    · push_neg at hex
      have hn := bestAskAux_none book.asks dblMax none
        fun l hl hv => hex l hl hv
      rw [get_best_ask, hn] at hr
      exact absurd hr (by simp)

/-- Claim C5 witness: on a book holding bid 2 and ask 3, the best-bid
snapshot (2, 1, 1) is a valid member slot with positive and maximal
price. -/
theorem c5_best_query_wit :
    (⟨2, 1, 1, true⟩ : PriceLevel) ∈
        (applyOps (emptyBook 2) [.bid 2 1 1, .ask 3 1 2]).bids ∧
      (⟨2, 1, 1, true⟩ : PriceLevel).valid = true ∧
      (0 : ℚ) < (⟨2, 1, 1, true⟩ : PriceLevel).price ∧
      ∀ l ∈ (applyOps (emptyBook 2) [.bid 2 1 1, .ask 3 1 2]).bids,
        l.valid = true → l.price ≤ (⟨2, 1, 1, true⟩ : PriceLevel).price :=
  (c5_best_query (applyOps (emptyBook 2) [.bid 2 1 1, .ask 3 1 2])).2.1
    ⟨2, 1, 1, true⟩ (by decide)

/-- Claim C6, counterexample: the claim fails at the sentinel price p = 0.
`update_bid(0, 5, 1)` on a fresh book returns true, yet the immediately
following `get_best_bid` returns the empty optional instead of a snapshot
with price at least 0. -/
theorem c6_update_read_cex :
    (update_bid 0 5 1 (emptyBook 1)).1 = true ∧
      get_best_bid (update_bid 0 5 1 (emptyBook 1)).2 = none := by
  constructor <;> decide

/-- Claim C6 (amended): for every price p > 0, size s > 0 and timestamp t,
if `update_bid(p, s, t)` returns true then after any further operations
whose bid updates avoid price p, `get_best_bid` returns a snapshot whose
price is at least p, with equality whenever p is the highest valid bid
price at query time. -/
theorem c6_update_read (book : OrderBook) (p : ℚ) (s : ℤ) (t : ℕ)
    (ops : List BookOp) (hp : 0 < p) (hs : 0 < s)
    (hsucc : (update_bid p s t book).1 = true)
    (hops : ∀ op ∈ ops, opTouchesBidPrice p op = false) :
    ∃ r, get_best_bid (applyOps (update_bid p s t book).2 ops) = some r ∧
      p ≤ r.price ∧
      ((∀ l ∈ (applyOps (update_bid p s t book).2 ops).bids,
          l.valid = true → l.price ≤ p) → r.price = p) := by
  have h1 : hasValidAt p (update_bid p s t book).2.bids = true := by
    simpa [update_bid] using
      updateLevel_hasValid book.bids p s t (by omega)
        (by simpa [update_bid] using hsucc)
  have h2 := applyOps_hasValidBid ops (update_bid p s t book).2 p hops h1
  simp only [hasValidAt, List.any_eq_true, Bool.and_eq_true,
    decide_eq_true_eq] at h2
  obtain ⟨w, hw, hwv, hwp⟩ := h2
  obtain ⟨r, hr, hm, hv, h0r, hmax⟩ :=
    bestBidAux_found (applyOps (update_bid p s t book).2 ops).bids 0 none
      ⟨w, hw, hwv, by rw [hwp]; exact hp⟩
  have hpr : p ≤ r.price := by
    have := hmax w hw hwv
    rwa [hwp] at this
  refine ⟨r, by simpa [get_best_bid] using hr, hpr, ?_⟩
  intro hall
  exact le_antisymm (hall r hm hv) hpr

/-- Claim C6 witness: publish bid (5, 2, 1) on a fresh book, then an ask at
7; the best-bid snapshot exists and its price is at least 5. -/
theorem c6_update_read_wit :
    ∃ r, get_best_bid
        (applyOps (update_bid 5 2 1 (emptyBook 2)).2 [.ask 7 1 2]) = some r ∧
      (5 : ℚ) ≤ r.price ∧
      ((∀ l ∈ (applyOps (update_bid 5 2 1 (emptyBook 2)).2 [.ask 7 1 2]).bids,
          l.valid = true → l.price ≤ 5) → r.price = 5) :=
  c6_update_read (emptyBook 2) 5 2 1 [.ask 7 1 2] (by norm_num) (by norm_num)
    (by decide) (by decide)

/-- Claim C7: whenever both best-of-side queries return snapshots, the mid
price is their average and the spread is ask minus bid with no clamping
(a crossed book gives a negative spread); whenever either side returns
empty, both helpers return the empty optional. -/
theorem c7_mid_spread (book : OrderBook) :
    (∀ b a, get_best_bid book = some b → get_best_ask book = some a →
      get_mid_price book = some ((b.price + a.price) / 2) ∧
        get_spread book = some (a.price - b.price)) ∧
    ((get_best_bid book = none ∨ get_best_ask book = none) →
      get_mid_price book = none ∧ get_spread book = none) := by
  constructor
  · intro b a hb ha
    constructor <;> simp [get_mid_price, get_spread, hb, ha]
  · intro h
    rcases h with h | h
    · cases ha : get_best_ask book <;>
        simp [get_mid_price, get_spread, h, ha]
    · cases hb : get_best_bid book <;>
        simp [get_mid_price, get_spread, h, hb]

/-- Claim C7 witness: the crossed book bid 101 / ask 100 yields mid 100.5
and the raw negative spread −1, exactly as returned by the helpers. -/
theorem c7_mid_spread_wit :
    get_mid_price (applyOps (emptyBook 1) [.bid 101 10 1, .ask 100 10 2]) =
        some (((⟨101, 10, 1, true⟩ : PriceLevel).price +
          (⟨100, 10, 2, true⟩ : PriceLevel).price) / 2) ∧
      get_spread (applyOps (emptyBook 1) [.bid 101 10 1, .ask 100 10 2]) =
        some ((⟨100, 10, 2, true⟩ : PriceLevel).price -
          (⟨101, 10, 1, true⟩ : PriceLevel).price) :=
  (c7_mid_spread (applyOps (emptyBook 1) [.bid 101 10 1, .ask 100 10 2])).1
    ⟨101, 10, 1, true⟩ ⟨100, 10, 2, true⟩ (by decide) (by decide)

/-- Claim C8, counterexample: with size 0 the double call is observably
different from the single call.  After one `update_bid(5, 0, 1)` on a fresh
book, `get_best_bid` returns the freshly stored (5, 0, 1) level; after two
such calls the second one withdraws what the first stored, and
`get_best_bid` returns empty. -/
theorem c8_idem_cex :
    get_best_bid (update_bid 5 0 1 (emptyBook 1)).2 ≠
      get_best_bid (update_bid 5 0 1 (update_bid 5 0 1 (emptyBook 1)).2).2 := by
  decide

/-- Claim C8 (amended): for every size s ≠ 0, executing `update_bid(p, s, t)`
twice in succession with identical arguments leaves exactly the same book
state as executing it once (hence the two runs are indistinguishable under
all subsequent queries and updates); for s = 0 the two runs can differ
observably. -/
theorem c8_idem (book : OrderBook) (p : ℚ) (s : ℤ) (t : ℕ) (hs : s ≠ 0) :
    (update_bid p s t (update_bid p s t book).2).2 =
      (update_bid p s t book).2 := by
  simp [update_bid, updateLevel_idem book.bids p s t hs]

/-- Claim C8 witness: a concrete nonzero-size overwrite applied twice gives
the same book as applied once. -/
theorem c8_idem_wit :
    (update_bid 2 3 1 (update_bid 2 3 1 (emptyBook 2)).2).2 =
      (update_bid 2 3 1 (emptyBook 2)).2 :=
  c8_idem (emptyBook 2) 2 3 1 (by decide)

/-- Claim C9: whenever an update returns false it has modified nothing —
the whole book (every slot's fields and flags on both sides) is exactly as
before the call. -/
theorem c9_failure_atomic (book : OrderBook) (p : ℚ) (s : ℤ) (t : ℕ) :
    ((update_bid p s t book).1 = false → (update_bid p s t book).2 = book) ∧
    ((update_ask p s t book).1 = false → (update_ask p s t book).2 = book) := by
  constructor
  · intro h
    have heq := updateLevel_false_eq book.bids p s t
      (by simpa [update_bid] using h)
    simp [update_bid, heq]
  · intro h
    have heq := updateLevel_false_eq book.asks p s t
      (by simpa [update_ask] using h)
    simp [update_ask, heq]

/-- Claim C9 witness: a full one-slot bid table refuses a novel price and
the book is unchanged. -/
theorem c9_failure_atomic_wit :
    (update_bid 2 5 2 (update_bid 1 1 1 (emptyBook 1)).2).2 =
      (update_bid 1 1 1 (emptyBook 1)).2 :=
  (c9_failure_atomic (update_bid 1 1 1 (emptyBook 1)).2 2 5 2).1 (by decide)

/-- Claim C10: negative sizes are accepted.  For every s < 0 the update is
not rejected: it returns true exactly when a slot is claimable or a valid
slot already holds the price (the same acceptance condition as for any
other size), and on a fresh book the level is stored with the negative
size, which the next `get_best_bid` returns in its snapshot. -/
theorem c10_negative_size :
    (∀ (book : OrderBook) (p : ℚ) (t : ℕ) (s : ℤ), s < 0 →
      (update_bid p s t book).1 = updateAccepts p book.bids) ∧
    ((update_bid 5 (-3) 1 (emptyBook 1)).1 = true ∧
      get_best_bid (update_bid 5 (-3) 1 (emptyBook 1)).2 =
        some ⟨5, -3, 1, true⟩) := by
  refine ⟨?_, by decide, by decide⟩
  intro book p t s _
  simpa [update_bid] using updateLevel_fst book.bids p s t

/-- Claim C10 witness: the acceptance condition instantiated at the
negative size -3 on a fresh two-slot book. -/
theorem c10_negative_size_wit :
    (-3 : ℤ) < 0 ∧
      (update_bid 7 (-3) 2 (emptyBook 2)).1 = updateAccepts 7 (emptyBook 2).bids :=
  ⟨by decide, c10_negative_size.1 (emptyBook 2) 7 2 (-3) (by decide)⟩

end hft
